import Mathlib

/-!
Shallow embedding of the ILfD ssm-jax repository's core HMM/ARHMM code
(`ssm/utils.py`, `ssm/hmm/base.py`, `ssm/arhmm/emissions.py`) and proofs of
the frozen specification claims about it.

Conventions:
* Python floats are modelled as `ℚ` where the code is rational arithmetic and
  as `ℝ` where genuine `log`/`exp` arithmetic happens.
* `None` is modelled as `Option.none`; a Python `assert`/`raise` is an
  `Except.error` carrying the message.
* Arrays are lists (or `Fin`-indexed functions) in row-major reading.
-/

namespace SsmJax

/-! ## `ssm/utils.py` : `sum_tuples`

Python:
```
def sum_tuples(a, b):
    assert a or b
    if a is None: return b
    elif b is None: return a
    else: return tuple(ai + bi for ai, bi in zip(a, b))
```
A tuple argument is modelled as `Option (List ℚ)`; Python truthiness of an
optional tuple is `false` for `None` and for the empty tuple. -/

/-- Python truthiness for an optional tuple: `None` and `()` are falsy. -/
def tupleTruthy : Option (List ℚ) → Bool
  | none => false
  | some l => !l.isEmpty

/-- Embedding of `ssm.utils.sum_tuples`.  The `assert a or b` line runs first;
a failed assertion is an `Except.error`. -/
def sum_tuples (a b : Option (List ℚ)) : Except String (Option (List ℚ)) :=
  if tupleTruthy a || tupleTruthy b then
    match a, b with
    | none, _ => Except.ok b
    | some _, none => Except.ok a
    | some xs, some ys => Except.ok (some (List.zipWith (fun x y => x + y) xs ys))
  else Except.error "assert a or b"

/-! ## `ssm/utils.py` : `format_dataset` / `_ensure_batch_dim`

Python (inner helper of the `format_dataset` decorator):
```
def _ensure_batch_dim(arr, shp):
    ndim = len(shp)
    if ndim > 0:
        assert arr.shape[-ndim:] == shp
    if arr.ndim == ndim + 2:
        return arr
    elif arr.ndim == ndim + 1:
        return arr[None, ...]
    else:
        raise Exception("dataset must consist of arrays of shape "
                        "((batch, timesteps) + event_shape) or ((timesteps,) + event_shape)")
```
-/

/-- A numpy array, modelled as its shape plus its row-major flat data.
Prepending a length-1 axis (`arr[None, ...]`) leaves `flat` unchanged. -/
structure NDArray where
  shape : List ℕ
  flat : List ℚ
deriving DecidableEq

/-- Embedding of `_ensure_batch_dim` from `ssm.utils.format_dataset`.
`arr.shape[-ndim:]` for `ndim > 0` is `shape.drop (shape.length - ndim)`,
which also matches numpy when the rank is below `ndim`. -/
def ensure_batch_dim (arr : NDArray) (event : List ℕ) : Except String NDArray :=
  let ndim := event.length
  if 0 < ndim ∧ arr.shape.drop (arr.shape.length - ndim) ≠ event then
    Except.error "AssertionError: arr.shape[-ndim:] == shp"
  else if arr.shape.length = ndim + 2 then
    Except.ok arr
  else if arr.shape.length = ndim + 1 then
    Except.ok ⟨1 :: arr.shape, arr.flat⟩
  else
    Except.error ("dataset must consist of arrays of shape " ++
      "((batch, timesteps) + event_shape) or ((timesteps,) + event_shape)")

/-! ## `ssm/utils.py` : `compute_state_overlap` and `find_permutation`

`find_permutation` calls `scipy.optimize.linear_sum_assignment` (an external
library).  Its documented contract is that, on a `K1×K2` cost matrix with
`K1 ≤ K2`, the returned column indices are `K1` pairwise-distinct members of
`0..K2-1` (and the row indices are `0..K1-1` in order, which the Python code
asserts).  The assignment is therefore a parameter `lsa` here, and the claims
carry its contract as hypotheses.

Python tail of `find_permutation`:
```
tmp, perm = linear_sum_assignment(-overlap)
assert np.all(tmp == np.arange(K1))
if K1 < K2:
    unused = np.array(list(set(np.arange(K2)) - set(perm)))
    perm = np.concatenate((perm, unused))
return perm
```
The iteration order of a Python `set` of small ints is increasing, which is
what `List.range`+`filter` produces; the spec notes the order is unspecified
and no claim depends on it. -/

/-- Embedding of `ssm.utils.compute_state_overlap`: entry `(i, j)` counts the
timesteps `t` with `z1[t] = i` and `z2[t] = j`. -/
def compute_state_overlap (z1 z2 : List ℕ) (i j : ℕ) : ℕ :=
  ((z1.zip z2).filter (fun p => p.1 = i && p.2 = j)).length

/-- Embedding of the tail of `ssm.utils.find_permutation`: pad the assignment
columns `perm` with the indices of `0..K2-1` it does not use. -/
def find_permutation_pad (K2 : ℕ) (perm : List ℕ) : List ℕ :=
  if perm.length < K2 then
    perm ++ (List.range K2).filter (fun j => decide (j ∉ perm))
  else perm

/-- Embedding of `ssm.utils.find_permutation`, parametric in the external
`linear_sum_assignment` solver `lsa` (given the overlap matrix, it returns
the list of matched column indices). -/
def find_permutation (z1 z2 : List ℕ) (K2 : ℕ)
    (lsa : (ℕ → ℕ → ℕ) → List ℕ) : List ℕ :=
  find_permutation_pad K2 (lsa (compute_state_overlap z1 z2))

/-! ## `ssm/utils.py` : `logspace_tensordot`

Python:
```
def logspace_tensordot(tensor, matrix, axis):
    tensor = np.moveaxis(tensor, axis, -1)
    tensor = spsp.logsumexp(tensor[..., None] + matrix, axis=-2)
    return np.moveaxis(tensor, -1, axis)
```
The tensor is modelled with its contraction axis exhibited in the middle:
`tensor : α → Fin m → β → ℝ`, where `α` (resp. `β`) is the multi-index of the
axes before (resp. after) `axis`; `np.moveaxis` to and from the last position
is exactly this currying and is shape-preserving.  `jax`'s `logsumexp` is the
external reduction `log ∘ sum ∘ exp` (its max-shift is a float-stability
detail with the same real value). -/

/-- Log-sum-exp reduction over a `Fin m`-indexed vector. -/
noncomputable def logsumexp {m : ℕ} (v : Fin m → ℝ) : ℝ :=
  Real.log (∑ i, Real.exp (v i))

/-- Embedding of `ssm.utils.logspace_tensordot`: contract the `Fin m` axis of
`tensor` against `matrix` in log space.  The result has the same shape with
that axis resized from `m` to `n`. -/
noncomputable def logspace_tensordot {α β : Type} {m n : ℕ}
    (tensor : α → Fin m → β → ℝ) (matrix : Fin m → Fin n → ℝ) :
    α → Fin n → β → ℝ :=
  fun a j b => logsumexp (fun i => tensor a i b + matrix i j)

/-! ## `ssm/hmm/base.py` : Dirichlet-conjugate M-steps

Python:
```
def _m_step_initial_distribution(self, posteriors):
    stats = np.sum(posteriors.expected_states[:, 0, :], axis=0)
    stats += self._initial_distribution_prior.concentration
    conditional = tfp.distributions.Dirichlet(concentration=stats)
    self._initial_distribution = tfp.distributions.Categorical(probs=conditional.mode())

def _m_step_transition_distribution(self, posteriors):
    stats = np.sum(posteriors.expected_transitions, axis=0)
    stats += self._transition_distribution_prior.concentration
    conditional = tfp.distributions.Dirichlet(concentration=stats)
    self._transition_distribution = tfp.distributions.Categorical(probs=conditional.mode())
```
`tfp.distributions.Dirichlet.mode` (external library; the spec spells out its
formula) is `(concentration - 1) / (sum(concentration) - K)` elementwise,
guarded: when some concentration is `≤ 1` the mode is undefined and tfp
yields NaN, modelled here as `Option.none`. -/

/-- Mode of a `Dirichlet(c)` distribution over `Fin K`, with tfp's guard:
defined only when every concentration exceeds 1. -/
def dirichletMode {K : ℕ} (c : Fin K → ℚ) : Option (Fin K → ℚ) :=
  if ∀ i, 1 < c i then some (fun i => (c i - 1) / ((∑ j, c j) - K)) else none

/-- Embedding of `HMM._m_step_initial_distribution`.  `Ez b t k` is
`posteriors.expected_states[b, t, k]` for a batch of `B` posteriors over
`T+1` timesteps; `prior` is the initial Dirichlet prior's concentration.
The new initial distribution's probability vector is the Dirichlet posterior
mode of the summed `t = 0` occupancies plus the prior pseudo-counts. -/
def m_step_initial_distribution {B T K : ℕ}
    (Ez : Fin B → Fin (T + 1) → Fin K → ℚ) (prior : Fin K → ℚ) :
    Option (Fin K → ℚ) :=
  dirichletMode (fun k => (∑ b, Ez b 0 k) + prior k)

/-- Modelled from the spec: `HMMPosterior.expected_transitions`
(`ssm/hmm/posterior.py`, not under `src/`) exposes, per sequence, the
expected pairwise-transition tensor aggregated over the `T` transitions —
the spec's transition M-step sums "expected pairwise transitions across all
sequences and timesteps".  `xi b t i j` is sequence `b`'s expected
`(z_t = i, z_{t+1} = j)` count. -/
def expected_transitions {B T K : ℕ}
    (xi : Fin B → Fin T → Fin K → Fin K → ℚ) : Fin B → Fin K → Fin K → ℚ :=
  fun b i j => ∑ t, xi b t i j

/-- Embedding of `HMM._m_step_transition_distribution`: sum the batch of
per-sequence expected-transition matrices, add the transition prior's
row-wise concentration, and take the Dirichlet mode of each row
independently (tfp broadcasts the Dirichlet over the leading row axis). -/
def m_step_transition_distribution {B T K : ℕ}
    (xi : Fin B → Fin T → Fin K → Fin K → ℚ) (prior : Fin K → Fin K → ℚ) :
    Fin K → Option (Fin K → ℚ) :=
  fun i => dirichletMode (fun j => (∑ b, expected_transitions xi b i j) + prior i j)

/-! ## `ssm/hmm/base.py` : `HMM.initialize` and `HMM.fit` control flow

Python:
```
def initialize(self, dataset, key, method="kmeans"):
    if method.lower() == "random":
        assignments = ...
    elif method.lower() == "kmeans":
        assignments = ...
    else:
        raise Exception("Observations.initialize: Invalid initialize method: {}".format(method))
    Ez = one_hot(assignments, self.num_states)
    dummy_posteriors = HMMPosterior(None, Ez, None)
    self._m_step_emission_distribution(dataset, dummy_posteriors)

def fit(self, dataset, method="em", num_iters=100, tol=1e-4,
        initialization_method="kmeans", key=None, verbosity=...):
    ...
    if initialization_method is not None:
        self.initialize(dataset, key, method=initialization_method)
    if method == "em":
        log_probs, model, posteriors = em(model, dataset, **kwargs)
    else:
        raise ValueError(f"Method {method} is not recognized/supported.")
    return log_probs, model, posteriors
```
The claims are about control flow (which updates run before which error), so
the embedding records the trace of parameter-mutating events together with
the raised error message, if any. -/

/-- Python's `str.lower()` on the method strings (ASCII case folding),
modelled character by character so that it evaluates inside proofs. -/
def strToLower (s : String) : String :=
  ⟨s.data.map Char.toLower⟩

/-- Parameter-mutating events of `HMM.fit`: the emission M-step performed by
`HMM.initialize`, and one event per EM iteration run by `em`. -/
inductive FitEvent where
  | emissionMStep : FitEvent
  | emIteration : FitEvent
deriving DecidableEq

/-- Embedding of `HMM.initialize`'s control flow: a valid method (checked
case-insensitively, `random` first) performs one emission M-step; an invalid
one raises before any parameter update. -/
def initializeModel (method : String) : Except String (List FitEvent) :=
  if strToLower method = "random" then Except.ok [FitEvent.emissionMStep]
  else if strToLower method = "kmeans" then Except.ok [FitEvent.emissionMStep]
  else Except.error ("Observations.initialize: Invalid initialize method: " ++ method)

/-- Embedding of `HMM.fit`'s control flow: the pair of the ordered list of
parameter-update events that ran and the error message raised, if any.
Initialization (when `initMethod` is not `None`) runs before the fitting
`method` is inspected; `em` contributes `numIters` iteration events. -/
def fitTrace (method : String) (initMethod : Option String) (numIters : ℕ) :
    List FitEvent × Option String :=
  match initMethod with
  | none =>
    if method = "em" then (List.replicate numIters FitEvent.emIteration, none)
    else ([], some ("Method " ++ method ++ " is not recognized/supported."))
  | some im =>
    match initializeModel im with
    | Except.error e => ([], some e)
    | Except.ok evs =>
      if method = "em" then (evs ++ List.replicate numIters FitEvent.emIteration, none)
      else (evs, some ("Method " ++ method ++ " is not recognized/supported."))

/-! ## `ssm/hmm/base.py` : `HMM.marginal_likelihood` and the forward pass

Python:
```
def marginal_likelihood(self, data, posterior=None):
    if posterior is None:
        posterior = self.infer_posterior(data)
    dummy_states = np.zeros(data.shape[0], dtype=int)
    return self.log_probability(dummy_states, data) - posterior.log_prob(dummy_states)
```
`infer_posterior` packages the normalized log initial probabilities `li`, the
per-timestep emission log-likelihoods `ll` and the normalized log transition
matrix `lt` into a `StationaryDiscreteChain`; those three arrays parametrize
the embedding.  There are `T+1` timesteps and `K+1` states. -/

/-- Forward messages of the spec's forward pass (section 4.1):
`alpha 0 k = li k + ll 0 k` and
`alpha (t+1) j = ll (t+1) j + logsumexp_i (alpha t i + lt i j)`. -/
noncomputable def alphaFwd {K : ℕ} (li : Fin (K + 1) → ℝ)
    (lt : Fin (K + 1) → Fin (K + 1) → ℝ) (ll : ℕ → Fin (K + 1) → ℝ) :
    ℕ → Fin (K + 1) → ℝ
  | 0 => fun k => li k + ll 0 k
  | t + 1 => fun j => ll (t + 1) j + logsumexp (fun i => alphaFwd li lt ll t i + lt i j)

/-- Log normalizer of a `T+1`-step sequence: `logsumexp_k (alpha T k)`.
This is the forward-pass marginal log-likelihood. -/
noncomputable def logZ {K : ℕ} (li : Fin (K + 1) → ℝ)
    (lt : Fin (K + 1) → Fin (K + 1) → ℝ) (ll : ℕ → Fin (K + 1) → ℝ) (T : ℕ) : ℝ :=
  logsumexp (alphaFwd li lt ll T)

/-- Modelled from the spec: `SSM.log_probability` (`ssm/base.py`, not under
`src/`; `AutoregressiveHMM.log_probability` in `src/ssm/hmm/base.py` has the
same structure) — the log joint
`log p(z, y) = log p(z_0) + Σ_t log p(z_{t+1} | z_t) + Σ_t log p(y_t | z_t)`. -/
noncomputable def log_probability {K : ℕ} (li : Fin (K + 1) → ℝ)
    (lt : Fin (K + 1) → Fin (K + 1) → ℝ) (ll : ℕ → Fin (K + 1) → ℝ) (T : ℕ)
    (z : Fin (T + 1) → Fin (K + 1)) : ℝ :=
  li (z 0) + (∑ t : Fin T, lt (z t.castSucc) (z t.succ)) + ∑ t : Fin (T + 1), ll t.val (z t)

/-- Modelled from the spec: `StationaryDiscreteChain.log_prob`
(`ssm/distributions/discrete_chain.py`, not under `src/`) — the posterior
log-probability of a fixed state sequence `z`, i.e. the chain's unnormalized
log score of `z` (initial + transition + likelihood factors) minus the
forward-pass log normalizer. -/
noncomputable def chain_log_prob {K : ℕ} (li : Fin (K + 1) → ℝ)
    (lt : Fin (K + 1) → Fin (K + 1) → ℝ) (ll : ℕ → Fin (K + 1) → ℝ) (T : ℕ)
    (z : Fin (T + 1) → Fin (K + 1)) : ℝ :=
  (li (z 0) + (∑ t : Fin T, lt (z t.castSucc) (z t.succ)) + ∑ t : Fin (T + 1), ll t.val (z t))
    - logZ li lt ll T

/-- Embedding of `HMM.marginal_likelihood`: evaluate the log joint and the
posterior log-probability at the all-zeros dummy state sequence and subtract. -/
noncomputable def marginal_likelihood {K : ℕ} (li : Fin (K + 1) → ℝ)
    (lt : Fin (K + 1) → Fin (K + 1) → ℝ) (ll : ℕ → Fin (K + 1) → ℝ) (T : ℕ) : ℝ :=
  log_probability li lt ll T (fun _ => 0) - chain_log_prob li lt ll T (fun _ => 0)

/-! ## `ssm/arhmm/emissions.py` : autoregressive scans

Python (`AutoregressiveEmissions.log_probs_scan`; the body of
`AutoregressiveHMM._log_likelihoods` in `ssm/hmm/base.py` is identical):
```
def _compute_ll(x, y):
    ll = self._emission_distribution.log_prob(y, covariates=x.ravel())
    new_x = np.row_stack([x[1:], y])
    return new_x, ll
_, log_probs = lax.scan(_compute_ll, np.zeros((num_lags, dim)), data)
log_probs = log_probs.at[:num_lags].set(0.0)
```
The per-state emission `log_prob` is abstracted as a function
`lp : window → observation → ℚ`. -/

/-- The rolling lag window update `np.row_stack([x[1:], y])`: drop the oldest
row, append the newest observation. -/
def roll (x : List (List ℚ)) (y : List ℚ) : List (List ℚ) :=
  x.tail ++ [y]

/-- The `lax.scan` over a sequence: emit `f window y` at each step while
rolling the window. -/
def arScan (f : List (List ℚ) → List ℚ → ℚ) :
    List (List ℚ) → List (List ℚ) → List ℚ
  | _, [] => []
  | x, y :: ys => f x y :: arScan f (roll x y) ys

/-- The `.at[:L].set(0.0)` update: overwrite the first `L` entries with 0. -/
def zeroTake : ℕ → List ℚ → List ℚ
  | 0, l => l
  | _ + 1, [] => []
  | L + 1, _ :: l => 0 :: zeroTake L l

/-- Embedding of `AutoregressiveEmissions.log_probs_scan` (and of the
identical `AutoregressiveHMM._log_likelihoods`): scan the sequence with a
zero-initialized lag window, then zero out the first `num_lags` entries. -/
def log_probs_scan (L dim : ℕ) (lp : List (List ℚ) → List ℚ → ℚ)
    (data : List (List ℚ)) : List ℚ :=
  zeroTake L (arScan lp (List.replicate L (List.replicate dim 0)) data)

/-! ### `AutoregressiveEmissions.m_step` statistics accumulation

Python:
```
def _collect_stats(carry, args):
    x, stats, counts = carry
    y, w = args
    new_x = np.row_stack([x[1:], y])
    new_stats = tree_map(np.add, stats,
                         tree_map(lambda s: np.einsum('k,...->k...', w, s),
                                  expfam._gaussian_linreg_suff_stats(y, x.ravel())))
    new_counts = counts + w
    return (new_x, new_stats, new_counts), None

init_stats = (np.zeros((num_states, num_lags * dim)),
              np.zeros((num_states, dim)),
              np.zeros((num_states, num_lags * dim, num_lags * dim)),
              np.zeros((num_states, dim, num_lags * dim)),
              np.zeros((num_states, dim, dim)))
init_counts = np.zeros(num_states)

def scan_one(data, weights):
    (_, stats, counts), _ = lax.scan(_collect_stats,
                                     (data[:num_lags], init_stats, init_counts),
                                     (data[num_lags:], weights[num_lags:]))
    return stats, counts
```
-/

/-- Outer product of two vectors as a matrix (rows indexed by `a`). -/
def outer (a b : List ℚ) : List (List ℚ) :=
  a.map (fun ai => b.map (fun bi => ai * bi))

/-- Per-state sufficient statistics of the lag-window autoregression, in the
order fixed by `init_stats`: lag-window first moment `(L*dim)`, observation
first moment `(dim)`, lag-window second moment `(L*dim, L*dim)`, cross
moment `(dim, L*dim)`, observation second moment `(dim, dim)`. -/
structure ARStats where
  lagMoment : List ℚ
  obsMoment : List ℚ
  lagSecond : List (List ℚ)
  crossMoment : List (List ℚ)
  obsSecond : List (List ℚ)
deriving DecidableEq

/-- Modelled from the spec: `expfam._gaussian_linreg_suff_stats`
(`ssm/distributions/expfam.py`, not under `src/`) — the tuple
`(x, y, x xᵀ, y xᵀ, y yᵀ)` of weighted-regression sufficient statistics of
observation `y` given raveled covariates `x`, whose components match the
shapes of `init_stats` above (spec 4.4: first moment of the lag-window,
first moment of the observation, second moment of the lag-window, cross
moment, second moment of the observation). -/
def gaussian_linreg_suff_stats (y x : List ℚ) : ARStats :=
  ⟨x, y, outer x x, outer y x, outer y y⟩

/-- Scale every component of the statistics by a weight (one state's slice of
`np.einsum('k,...->k...', w, s)`). -/
def smulStats (w : ℚ) (s : ARStats) : ARStats :=
  ⟨s.lagMoment.map (fun q => w * q),
   s.obsMoment.map (fun q => w * q),
   s.lagSecond.map (fun r => r.map (fun q => w * q)),
   s.crossMoment.map (fun r => r.map (fun q => w * q)),
   s.obsSecond.map (fun r => r.map (fun q => w * q))⟩

/-- Componentwise sum of two statistics tuples (`tree_map(np.add, ..)`). -/
def addStats (s t : ARStats) : ARStats :=
  ⟨List.zipWith (fun a b => a + b) s.lagMoment t.lagMoment,
   List.zipWith (fun a b => a + b) s.obsMoment t.obsMoment,
   List.zipWith (List.zipWith (fun a b => a + b)) s.lagSecond t.lagSecond,
   List.zipWith (List.zipWith (fun a b => a + b)) s.crossMoment t.crossMoment,
   List.zipWith (List.zipWith (fun a b => a + b)) s.obsSecond t.obsSecond⟩

/-- The all-zeros statistics tuple for lag `L` and emission dimension `dim`. -/
def zeroStats (L dim : ℕ) : ARStats :=
  ⟨List.replicate (L * dim) 0,
   List.replicate dim 0,
   List.replicate (L * dim) (List.replicate (L * dim) 0),
   List.replicate dim (List.replicate (L * dim) 0),
   List.replicate dim (List.replicate dim 0)⟩

/-- `init_stats`: one all-zeros statistics tuple per state. -/
def initStats (K L dim : ℕ) : List ARStats :=
  List.replicate K (zeroStats L dim)

/-- One `_collect_stats` statistics update: state `k` receives the common
sufficient statistics scaled by its weight `w k` and added to its running
sum. -/
def updStats (stats : List ARStats) (w : List ℚ) (y : List ℚ)
    (x : List (List ℚ)) : List ARStats :=
  List.zipWith (fun s wk => addStats s (smulStats wk (gaussian_linreg_suff_stats y x.flatten)))
    stats w

/-- The `lax.scan` of `_collect_stats` over the zipped
`(data[num_lags:], weights[num_lags:])`, carrying the rolling window, the
statistics and the counts. -/
def goStats : List (List ℚ) → List (List ℚ) → List (List ℚ) →
    List ARStats → List ℚ → List ARStats × List ℚ
  | _, [], _, stats, counts => (stats, counts)
  | _, _ :: _, [], stats, counts => (stats, counts)
  | x, y :: ys, w :: ws, stats, counts =>
    goStats (roll x y) ys ws (updStats stats w y x) (List.zipWith (fun a b => a + b) counts w)

/-- Embedding of `scan_one` in `AutoregressiveEmissions.m_step`: initialize
the window with the first `L` observations and accumulate statistics over
timesteps `L, L+1, …` of one sequence. -/
def scan_one (L K dim : ℕ) (data weights : List (List ℚ)) :
    List ARStats × List ℚ :=
  goStats (data.take L) (data.drop L) (weights.drop L)
    (initStats K L dim) (List.replicate K 0)

/-! ## Theorems -/

/-- C10 counterexample: `sum_tuples` applied to an empty tuple and `None`
fails the `assert a or b` truthiness check instead of returning the tuple,
so `None` is not an identity element on every non-`None` tuple. -/
theorem sum_tuples_empty_counterexample :
    sum_tuples (some []) none = Except.error "assert a or b" := rfl

/-- C10 (amended): `None` is an identity element of `sum_tuples` for every
nonempty tuple, two equal-length nonempty tuples are summed elementwise, and
both arguments `None` — or a falsy pair such as an empty tuple with `None` —
fails the assertion. -/
theorem sum_tuples_spec :
    (∀ xs : List ℚ, xs ≠ [] → sum_tuples (some xs) none = Except.ok (some xs)) ∧
    (∀ ys : List ℚ, ys ≠ [] → sum_tuples none (some ys) = Except.ok (some ys)) ∧
    (∀ xs ys : List ℚ, xs ≠ [] → xs.length = ys.length →
      sum_tuples (some xs) (some ys) =
        Except.ok (some (List.zipWith (fun x y => x + y) xs ys))) ∧
    sum_tuples none none = Except.error "assert a or b" := by
  refine ⟨?_, ?_, ?_, rfl⟩
  · intro xs hxs
    cases xs with
    | nil => exact absurd rfl hxs
    | cons a l => simp [sum_tuples, tupleTruthy]
  · intro ys hys
    cases ys with
    | nil => exact absurd rfl hys
    | cons a l => simp [sum_tuples, tupleTruthy]
  · intro xs ys hxs hlen
    cases xs with
    | nil => exact absurd rfl hxs
    | cons a l =>
      cases ys with
      | nil => simp at hlen
      | cons b m => simp [sum_tuples, tupleTruthy]

/-- C10 witness: concrete instances of the hypotheses and conclusions of
`sum_tuples_spec`. -/
theorem sum_tuples_spec_witness :
    (([(1 : ℚ)] : List ℚ) ≠ [] ∧ [(1 : ℚ)].length = [(2 : ℚ)].length) ∧
    sum_tuples (some [(1 : ℚ)]) (some [(2 : ℚ)]) =
      Except.ok (some (List.zipWith (fun x y => x + y) [(1 : ℚ)] [(2 : ℚ)])) :=
  ⟨⟨by decide, rfl⟩, sum_tuples_spec.2.2.1 [(1 : ℚ)] [(2 : ℚ)] (by decide) rfl⟩

/-- C6: `logspace_tensordot` computes, at every output index, the log of the
ordinary contraction of the exponentiated tensor with the exponentiated
matrix along the selected axis (whose size changes from `m` to `n`). -/
theorem logspace_tensordot_spec {α β : Type} {m n : ℕ}
    (tensor : α → Fin m → β → ℝ) (matrix : Fin m → Fin n → ℝ)
    (a : α) (j : Fin n) (b : β) :
    logspace_tensordot tensor matrix a j b =
      Real.log (∑ i, Real.exp (tensor a i b) * Real.exp (matrix i j)) := by
  simp [logspace_tensordot, logsumexp, Real.exp_add]

/-- C7: a `(timesteps,) + event_shape` array is lifted to batch size 1 with
its data unchanged, a `(batch, timesteps) + event_shape` array passes
through unchanged, and a trailing-shape mismatch or a rank other than
event-rank+1 / event-rank+2 is rejected with an error. -/
theorem format_dataset_spec (event : List ℕ) (arr : NDArray) :
    (∀ t : ℕ, arr.shape = t :: event →
      ensure_batch_dim arr event = Except.ok ⟨1 :: arr.shape, arr.flat⟩) ∧
    (∀ b t : ℕ, arr.shape = b :: t :: event →
      ensure_batch_dim arr event = Except.ok arr) ∧
    ((event ≠ [] ∧ arr.shape.drop (arr.shape.length - event.length) ≠ event) ∨
        (arr.shape.length ≠ event.length + 1 ∧ arr.shape.length ≠ event.length + 2) →
      ∃ e, ensure_batch_dim arr event = Except.error e) := by
  refine ⟨?_, ?_, ?_⟩
  · intro t ht
    simp [ensure_batch_dim, ht]
  · intro b t ht
    have h2 : event.length + 1 + 1 - event.length = 2 := by omega
    simp [ensure_batch_dim, ht, h2]
  · intro h
    simp only [ensure_batch_dim]
    split_ifs with hA hB hC
    · exact ⟨_, rfl⟩
    · rcases h with ⟨h1, h2⟩ | ⟨h1, h2⟩
      · exact absurd ⟨List.length_pos.mpr h1, h2⟩ hA
      · exact absurd hB h2
    · rcases h with ⟨h1, h2⟩ | ⟨h1, h2⟩
      · exact absurd ⟨List.length_pos.mpr h1, h2⟩ hA
      · exact absurd hC h1
    · exact ⟨_, rfl⟩

/-- C7 witness: a rank-2 array with event shape `[3]` is lifted to batch
size 1 by `ensure_batch_dim`, keeping its flat data. -/
theorem format_dataset_spec_witness :
    (⟨[5, 3], [1, 2, 3]⟩ : NDArray).shape = 5 :: [3] ∧
    ensure_batch_dim ⟨[5, 3], [1, 2, 3]⟩ [3] =
      Except.ok ⟨1 :: (⟨[5, 3], [1, 2, 3]⟩ : NDArray).shape, [1, 2, 3]⟩ :=
  ⟨rfl, (format_dataset_spec [3] ⟨[5, 3], [1, 2, 3]⟩).1 5 rfl⟩

/-- C8 counterexample: `fit` with the unsupported method `"sgd"` but a valid
initialization method performs the initialization parameter update (an
emission M-step) before raising the unsupported-method error, so the error
is not raised before every parameter update of the call. -/
theorem fit_invalid_method_counterexample :
    fitTrace "sgd" (some "random") 3 =
      ([FitEvent.emissionMStep], some "Method sgd is not recognized/supported.") := rfl

/-- C8 (amended): an invalid initialization method makes `initialize` raise
an error naming it before any parameter update; an invalid fitting method
makes `fit` raise an error naming it, and no EM iteration ever runs — but
when a non-`None` initialization method is supplied, the initialization
emission M-step runs before the fitting-method check. -/
theorem fit_invalid_method_spec :
    (∀ m : String, strToLower m ≠ "random" → strToLower m ≠ "kmeans" →
      initializeModel m =
        Except.error ("Observations.initialize: Invalid initialize method: " ++ m)) ∧
    (∀ (method : String) (n : ℕ), method ≠ "em" →
      fitTrace method none n =
        ([], some ("Method " ++ method ++ " is not recognized/supported."))) ∧
    (∀ (method im : String) (n : ℕ), method ≠ "em" →
      (strToLower im = "random" ∨ strToLower im = "kmeans") →
      fitTrace method (some im) n =
        ([FitEvent.emissionMStep],
          some ("Method " ++ method ++ " is not recognized/supported."))) ∧
    (∀ (method : String) (im : Option String) (n : ℕ), method ≠ "em" →
      FitEvent.emIteration ∉ (fitTrace method im n).1) := by
  refine ⟨?_, ?_, ?_, ?_⟩
  · intro m h1 h2
    simp [initializeModel, h1, h2]
  · intro method n h
    simp [fitTrace, h]
  · intro method im n h him
    rcases him with him | him <;>
      simp [fitTrace, initializeModel, him, h]
  · intro method im n h
    cases im with
    | none => simp [fitTrace, h]
    | some s =>
      have hred : fitTrace method (some s) n =
          match initializeModel s with
          | Except.error e => ([], some e)
          | Except.ok evs =>
            if method = "em" then (evs ++ List.replicate n FitEvent.emIteration, none)
            else (evs, some ("Method " ++ method ++ " is not recognized/supported.")) := rfl
      rw [hred]
      cases hIM : initializeModel s with
      | error e => simp
      | ok evs =>
        have hevs : evs = [FitEvent.emissionMStep] := by
          unfold initializeModel at hIM
          split_ifs at hIM <;> simp_all
        split_ifs with h1
        · exact absurd h1 h
        · simp [hevs]

/-- C8 witness: concrete instances of the hypotheses and conclusions of
`fit_invalid_method_spec`. -/
theorem fit_invalid_method_spec_witness :
    (("sgd" : String) ≠ "em") ∧
    fitTrace "sgd" none 4 =
      ([], some ("Method " ++ "sgd" ++ " is not recognized/supported.")) :=
  ⟨by decide, fit_invalid_method_spec.2.1 "sgd" 4 (by decide)⟩

/-- Helper: when every concentration exceeds 1, the guarded Dirichlet mode is
the elementwise `(c i - 1) / (Σ c - K)` vector, and that vector sums to 1. -/
theorem dirichletMode_of_lt {K : ℕ} (hK : 1 ≤ K) (c : Fin K → ℚ)
    (h : ∀ i, 1 < c i) :
    dirichletMode c = some (fun i => (c i - 1) / ((∑ j, c j) - K)) ∧
    (∑ i, (c i - 1) / ((∑ j, c j) - K)) = 1 := by
  have hne : (Finset.univ : Finset (Fin K)).Nonempty :=
    ⟨⟨0, hK⟩, Finset.mem_univ _⟩
  have hKS : (K : ℚ) < ∑ j, c j := by
    have h1 : (∑ _j : Fin K, (1 : ℚ)) = K := by
      simp [Finset.sum_const, Finset.card_univ]
    calc (K : ℚ) = ∑ _j : Fin K, (1 : ℚ) := h1.symm
      _ < ∑ j, c j := Finset.sum_lt_sum_of_nonempty hne (fun i _ => h i)
  have hden : (∑ j, c j) - (K : ℚ) ≠ 0 := sub_ne_zero.mpr hKS.ne'
  constructor
  · simp [dirichletMode, h]
  · rw [← Finset.sum_div]
    have hnum : (∑ i, (c i - 1)) = (∑ j, c j) - K := by
      rw [Finset.sum_sub_distrib]
      simp [Finset.sum_const, Finset.card_univ]
    rw [hnum, div_self hden]

/-- C2: the initial-state M-step returns the Dirichlet mode of the summed
`t = 0` expected occupancies plus the prior concentration — elementwise
`(count_k - 1) / (Σ count - K)` whenever every count exceeds 1 (in which
case the result is a probability vector), with the degenerate cases (any
concentration at most 1, which covers `K = 1` with unit mass) guarded into
an undefined (NaN) mode. -/
theorem m_step_initial_spec {B T K : ℕ}
    (Ez : Fin B → Fin (T + 1) → Fin K → ℚ) (prior : Fin K → ℚ)
    (hK : 1 ≤ K)
    (h : ∀ k, 1 < (∑ b, Ez b 0 k) + prior k) :
    m_step_initial_distribution Ez prior =
      some (fun k => ((∑ b, Ez b 0 k) + prior k - 1) /
        ((∑ j, ((∑ b, Ez b 0 j) + prior j)) - K)) ∧
    (∑ k, (((∑ b, Ez b 0 k) + prior k - 1) /
        ((∑ j, ((∑ b, Ez b 0 j) + prior j)) - K))) = 1 ∧
    (∀ c : Fin K → ℚ, ¬ (∀ i, 1 < c i) → dirichletMode c = none) := by
  have hmode := dirichletMode_of_lt hK (fun k => (∑ b, Ez b 0 k) + prior k) h
  exact ⟨hmode.1, hmode.2, fun c hc => by simp [dirichletMode, hc]⟩

/-- C2 witness: one sequence, two states, all occupancies 1 and prior
concentration 3/2 per state, giving counts 5/2 and mode entries 1/2. -/
theorem m_step_initial_spec_witness :
    (1 ≤ 2 ∧ ∀ _k : Fin 2, 1 <
      (∑ _b : Fin 1, (fun (_ : Fin 1) (_ : Fin (0 + 1)) (_ : Fin 2) => (1 : ℚ)) _b 0 _k) +
        (fun (_ : Fin 2) => (3 / 2 : ℚ)) _k) ∧
    m_step_initial_distribution (fun (_ : Fin 1) (_ : Fin (0 + 1)) (_ : Fin 2) => (1 : ℚ))
        (fun _ => (3 / 2 : ℚ)) =
      some (fun _k => ((∑ _b : Fin 1, (1 : ℚ)) + (3 / 2 : ℚ) - 1) /
        ((∑ _j : Fin 2, ((∑ _b : Fin 1, (1 : ℚ)) + (3 / 2 : ℚ))) - (2 : ℕ))) :=
  ⟨⟨by decide, by intro _k; norm_num⟩,
    (m_step_initial_spec (fun _ _ _ => (1 : ℚ)) (fun _ => (3 / 2 : ℚ))
      (by decide) (by intro _k; norm_num)).1⟩

/-- C1: the transition M-step returns, for each row `i` independently, the
Dirichlet mode of the expected pairwise transitions summed across all
sequences and all timesteps plus row `i` of the transition prior's
concentration; whenever every count of row `i` exceeds 1 the row is the
elementwise mode `(count_j - 1) / (Σ count - K)` and sums to 1. -/
theorem m_step_transition_spec {B T K : ℕ}
    (xi : Fin B → Fin T → Fin K → Fin K → ℚ) (prior : Fin K → Fin K → ℚ)
    (hK : 1 ≤ K)
    (h : ∀ i j, 1 < (∑ b, ∑ t, xi b t i j) + prior i j) :
    ∀ i, m_step_transition_distribution xi prior i =
        some (fun j => ((∑ b, ∑ t, xi b t i j) + prior i j - 1) /
          ((∑ j', ((∑ b, ∑ t, xi b t i j') + prior i j')) - K)) ∧
      (∑ j, (((∑ b, ∑ t, xi b t i j) + prior i j - 1) /
          ((∑ j', ((∑ b, ∑ t, xi b t i j') + prior i j')) - K))) = 1 := by
  intro i
  have hmode := dirichletMode_of_lt hK
    (fun j => (∑ b, ∑ t, xi b t i j) + prior i j) (h i)
  constructor
  · rw [show m_step_transition_distribution xi prior i =
        dirichletMode (fun j => (∑ b, ∑ t, xi b t i j) + prior i j) by
      simp [m_step_transition_distribution, expected_transitions]]
    exact hmode.1
  · exact hmode.2

/-- C1 witness: one sequence of two timesteps (one transition), two states,
all pairwise expectations 1 and prior concentration 1/2 per entry, giving
row counts 3/2 and mode entries 1/2. -/
theorem m_step_transition_spec_witness :
    (1 ≤ 2 ∧ ∀ _i _j : Fin 2, 1 <
      (∑ _b : Fin 1, ∑ _t : Fin 1,
        (fun (_ : Fin 1) (_ : Fin 1) (_ : Fin 2) (_ : Fin 2) => (1 : ℚ)) _b _t _i _j) +
        (fun (_ : Fin 2) (_ : Fin 2) => (1 / 2 : ℚ)) _i _j) ∧
    m_step_transition_distribution
        (fun (_ : Fin 1) (_ : Fin 1) (_ : Fin 2) (_ : Fin 2) => (1 : ℚ))
        (fun _ _ => (1 / 2 : ℚ)) 0 =
      some (fun _j => ((∑ _b : Fin 1, ∑ _t : Fin 1, (1 : ℚ)) + (1 / 2 : ℚ) - 1) /
        ((∑ _j' : Fin 2, ((∑ _b : Fin 1, ∑ _t : Fin 1, (1 : ℚ)) + (1 / 2 : ℚ))) - (2 : ℕ))) :=
  ⟨⟨by decide, by intro _i _j; norm_num⟩,
    (m_step_transition_spec (fun _ _ _ _ => (1 : ℚ)) (fun _ _ => (1 / 2 : ℚ))
      (by decide) (by intro _i _j; norm_num) 0).1⟩

/-- Helper: a sum of exponentials over the (nonempty) state set is positive. -/
theorem sum_exp_pos {K : ℕ} (v : Fin (K + 1) → ℝ) :
    0 < ∑ i, Real.exp (v i) :=
  Finset.sum_pos (fun _ _ => Real.exp_pos _) Finset.univ_nonempty

/-- Helper: `exp` inverts `logsumexp` over the nonempty state set. -/
theorem exp_logsumexp {K : ℕ} (v : Fin (K + 1) → ℝ) :
    Real.exp (logsumexp v) = ∑ i, Real.exp (v i) := by
  rw [logsumexp, Real.exp_log (sum_exp_pos v)]

/-- Helper: the log joint score of a state path extended by one state
decomposes into the path's score plus the new transition and emission
factors. -/
theorem log_probability_snoc {K : ℕ} (li : Fin (K + 1) → ℝ)
    (lt : Fin (K + 1) → Fin (K + 1) → ℝ) (ll : ℕ → Fin (K + 1) → ℝ) (T : ℕ)
    (z : Fin (T + 1) → Fin (K + 1)) (j : Fin (K + 1)) :
    log_probability li lt ll (T + 1) (Fin.snoc z j) =
      log_probability li lt ll T z + lt (z (Fin.last T)) j + ll (T + 1) j := by
  unfold log_probability
  have h0 : (Fin.snoc z j : Fin (T + 2) → Fin (K + 1)) 0 = z 0 := by
    rw [show (0 : Fin (T + 2)) = Fin.castSucc 0 from rfl, Fin.snoc_castSucc]
  have htrans : (∑ t : Fin (T + 1),
      lt ((Fin.snoc z j : Fin (T + 2) → Fin (K + 1)) t.castSucc)
        ((Fin.snoc z j : Fin (T + 2) → Fin (K + 1)) t.succ)) =
      (∑ t : Fin T, lt (z t.castSucc) (z t.succ)) + lt (z (Fin.last T)) j := by
    rw [Fin.sum_univ_castSucc (fun t : Fin (T + 1) =>
      lt ((Fin.snoc z j : Fin (T + 2) → Fin (K + 1)) t.castSucc)
        ((Fin.snoc z j : Fin (T + 2) → Fin (K + 1)) t.succ))]
    congr 1
    · refine Finset.sum_congr rfl (fun t _ => ?_)
      rw [Fin.snoc_castSucc, Fin.succ_castSucc t, Fin.snoc_castSucc]
    · rw [Fin.snoc_castSucc, Fin.succ_last, Fin.snoc_last]
  have hll : (∑ t : Fin (T + 2),
      ll t.val ((Fin.snoc z j : Fin (T + 2) → Fin (K + 1)) t)) =
      (∑ t : Fin (T + 1), ll t.val (z t)) + ll (T + 1) j := by
    rw [Fin.sum_univ_castSucc (fun t : Fin (T + 2) =>
      ll t.val ((Fin.snoc z j : Fin (T + 2) → Fin (K + 1)) t))]
    congr 1
    · exact Finset.sum_congr rfl (fun t _ => by rw [Fin.snoc_castSucc]; rfl)
    · rw [Fin.snoc_last]; rfl
  rw [h0, htrans, hll]
  ring

/-- Helper: summing over all length-`T+1` state paths is summing over the
last state and the remaining prefix path. -/
theorem sum_snoc_split {K T : ℕ} (F : (Fin (T + 1) → Fin (K + 1)) → ℝ) :
    (∑ w : Fin (T + 1) → Fin (K + 1), F w) =
      ∑ i : Fin (K + 1), ∑ z : Fin T → Fin (K + 1), F (Fin.snoc z i) := by
  rw [← Equiv.sum_comp (Fin.snocEquiv (fun _ => Fin (K + 1))) F,
    Fintype.sum_prod_type]
  rfl

/-- Helper: the exponentiated forward message at state `j` is the summed
exponentiated joint score of all length-`T+1` state paths ending in `j`. -/
theorem exp_alphaFwd {K : ℕ} (li : Fin (K + 1) → ℝ)
    (lt : Fin (K + 1) → Fin (K + 1) → ℝ) (ll : ℕ → Fin (K + 1) → ℝ) :
    ∀ (T : ℕ) (j : Fin (K + 1)),
    Real.exp (alphaFwd li lt ll T j) =
      ∑ z : Fin T → Fin (K + 1),
        Real.exp (log_probability li lt ll T (Fin.snoc z j))
  | 0, j => by
    rw [alphaFwd, Fintype.sum_unique]
    unfold log_probability
    have h0 : ∀ (w : Fin 0 → Fin (K + 1)) (t : Fin (0 + 1)),
        (Fin.snoc w j : Fin (0 + 1) → Fin (K + 1)) t = j := by
      intro w t
      simp [Fin.snoc]
    simp [h0, Fin.sum_univ_one]
  | T + 1, j => by
    rw [alphaFwd, Real.exp_add, exp_logsumexp]
    calc Real.exp (ll (T + 1) j) * ∑ i, Real.exp (alphaFwd li lt ll T i + lt i j)
        = ∑ i, ∑ z : Fin T → Fin (K + 1),
            Real.exp (log_probability li lt ll T (Fin.snoc z i)) *
              Real.exp (lt i j) * Real.exp (ll (T + 1) j) := by
          rw [Finset.mul_sum]
          refine Finset.sum_congr rfl (fun i _ => ?_)
          rw [Real.exp_add, exp_alphaFwd li lt ll T i, Finset.sum_mul, Finset.mul_sum]
          refine Finset.sum_congr rfl (fun z _ => ?_)
          ring
      _ = ∑ i, ∑ z : Fin T → Fin (K + 1),
            Real.exp (log_probability li lt ll (T + 1)
              (Fin.snoc (Fin.snoc z i) j)) := by
          refine Finset.sum_congr rfl (fun i _ => Finset.sum_congr rfl (fun z _ => ?_))
          rw [log_probability_snoc, Fin.snoc_last, Real.exp_add, Real.exp_add]
      _ = ∑ w : Fin (T + 1) → Fin (K + 1),
            Real.exp (log_probability li lt ll (T + 1) (Fin.snoc w j)) :=
          (sum_snoc_split (fun w =>
            Real.exp (log_probability li lt ll (T + 1) (Fin.snoc w j)))).symm

/-- Helper: the forward-pass log normalizer is the log of the summed
exponentiated joint scores over all state paths. -/
theorem logZ_eq {K : ℕ} (li : Fin (K + 1) → ℝ)
    (lt : Fin (K + 1) → Fin (K + 1) → ℝ) (ll : ℕ → Fin (K + 1) → ℝ) (T : ℕ) :
    logZ li lt ll T =
      Real.log (∑ w : Fin (T + 1) → Fin (K + 1),
        Real.exp (log_probability li lt ll T w)) := by
  rw [logZ, logsumexp]
  congr 1
  rw [sum_snoc_split (fun w => Real.exp (log_probability li lt ll T w))]
  exact Finset.sum_congr rfl (fun j _ => exp_alphaFwd li lt ll T j)

/-- C5: `marginal_likelihood` equals the log joint probability of any fixed
state sequence minus the posterior log-probability of that sequence (not
only the all-zeros dummy sequence it evaluates), and that common value is
the true marginal log-likelihood: the log of the sum, over all state
sequences, of the exponentiated joint score — the forward pass and the
joint/posterior difference are two computations of the same quantity. -/
theorem marginal_likelihood_spec {K : ℕ} (li : Fin (K + 1) → ℝ)
    (lt : Fin (K + 1) → Fin (K + 1) → ℝ) (ll : ℕ → Fin (K + 1) → ℝ) (T : ℕ)
    (z : Fin (T + 1) → Fin (K + 1)) :
    marginal_likelihood li lt ll T =
      log_probability li lt ll T z - chain_log_prob li lt ll T z ∧
    marginal_likelihood li lt ll T =
      Real.log (∑ w : Fin (T + 1) → Fin (K + 1),
        Real.exp (log_probability li lt ll T w)) := by
  have hml : marginal_likelihood li lt ll T = logZ li lt ll T := by
    simp only [marginal_likelihood, chain_log_prob, log_probability]
    ring
  constructor
  · rw [hml]
    simp only [chain_log_prob, log_probability]
    ring
  · rw [hml, logZ_eq]

/-- Helper: rolling the window forward one step shifts the window slice of
the padded observation stream by one position. -/
theorem roll_window (x : List (List ℚ)) (y : List ℚ) (ys : List (List ℚ))
    (n : ℕ) (hx : x ≠ []) :
    ((roll x y) ++ ys.take n).drop n = (x ++ (y :: ys).take (n + 1)).drop (n + 1) := by
  cases x with
  | nil => exact absurd rfl hx
  | cons a xt => simp [roll, List.append_assoc]

/-- Helper: the autoregressive `lax.scan` emits, at step `n`, the value of
`f` on the slice of the padded stream that the rolling window holds there. -/
theorem arScan_eq (f : List (List ℚ) → List ℚ → ℚ) :
    ∀ (ys x : List (List ℚ)), x ≠ [] →
    arScan f x ys = (List.range ys.length).map
      (fun n => f ((x ++ ys.take n).drop n) (ys.getD n []))
  | [], _, _ => rfl
  | y :: ys, x, hx => by
    have hroll : roll x y ≠ [] := by simp [roll]
    rw [arScan, arScan_eq f ys (roll x y) hroll, List.length_cons,
      List.range_succ_eq_map, List.map_cons, List.map_map]
    congr 1
    · simp
    · refine List.map_congr_left (fun n _ => ?_)
      simp only [Function.comp_apply]
      rw [roll_window x y ys n hx, List.getD_cons_succ]

/-- Helper: zeroing the first `L` entries of a list mapped over `range T`
replaces the mapped values at indices below `L` by 0. -/
theorem zeroTake_map_range (T : ℕ) : ∀ (L : ℕ) (g : ℕ → ℚ),
    zeroTake L ((List.range T).map g) =
      (List.range T).map (fun t => if t < L then 0 else g t) := by
  induction T with
  | zero => intro L g; cases L <;> rfl
  | succ T ih =>
    intro L g
    rw [List.range_succ_eq_map, List.map_cons, List.map_cons,
      List.map_map, List.map_map]
    cases L with
    | zero => simp [zeroTake]
    | succ L =>
      rw [zeroTake]
      have hmap : (List.range T).map (g ∘ Nat.succ) =
          (List.range T).map (fun t => g (t + 1)) := rfl
      rw [hmap, ih L (fun t => g (t + 1))]
      simp only [if_pos (Nat.succ_pos L)]
      congr 1
      refine List.map_congr_left (fun n _ => ?_)
      simp [Function.comp, Nat.succ_lt_succ_iff]

/-- Helper: `getD` after a `drop` indexes into the original list. -/
theorem getD_drop (l : List (List ℚ)) (n m : ℕ) :
    (l.drop n).getD m [] = l.getD (n + m) [] := by
  simp [List.getD_eq_getD_get?, List.get?_eq_getElem?, List.getElem?_drop]

/-- Helper: the statistics scan evaluated against explicit window slices:
starting from window `x`, the `n`-th consumed pair is accumulated with
window `(x ++ ys.take n).drop n`. -/
theorem goStats_eq :
    ∀ (ys ws x : List (List ℚ)) (stats : List ARStats) (counts : List ℚ),
    x ≠ [] →
    goStats x ys ws stats counts =
      (List.range (min ys.length ws.length)).foldl
        (fun acc n =>
          (updStats acc.1 (ws.getD n []) (ys.getD n []) ((x ++ ys.take n).drop n),
           List.zipWith (fun a b => a + b) acc.2 (ws.getD n [])))
        (stats, counts)
  | [], ws, x, stats, counts, _ => by simp [goStats]
  | y :: ys, [], x, stats, counts, _ => by simp [goStats]
  | y :: ys, w :: ws, x, stats, counts, hx => by
    have hroll : roll x y ≠ [] := by simp [roll]
    rw [goStats, goStats_eq ys ws (roll x y) _ _ hroll, List.length_cons,
      List.length_cons, Nat.succ_min_succ, List.range_succ_eq_map,
      List.foldl_cons, List.foldl_map]
    have hinit :
        (updStats stats ((w :: ws).getD 0 []) ((y :: ys).getD 0 [])
            ((x ++ (y :: ys).take 0).drop 0),
         List.zipWith (fun a b => a + b) counts ((w :: ws).getD 0 [])) =
        (updStats stats w y x, List.zipWith (fun a b => a + b) counts w) := by
      simp
    rw [hinit]
    refine List.foldl_ext _ _ _ (fun acc n _ => ?_)
    rw [roll_window x y ys n hx, List.getD_cons_succ, List.getD_cons_succ]

/-- C3: for a lag-`L` autoregressive model, the emitted per-timestep
log-likelihoods are exactly zero for the first `L` timesteps and are the
emission log-prob of the `L` preceding observations for `t ≥ L`; and the
M-step statistics scan accumulates contributions only from timesteps
`t = L, L+1, …` (none from the first `L`), processed left to right, each
weighted by that timestep's state weights and computed from the window of
exactly the `L` preceding observations. -/
theorem arhmm_lag_window_spec (L K dim : ℕ) (lp : List (List ℚ) → List ℚ → ℚ)
    (data weights : List (List ℚ))
    (hL : 1 ≤ L) (hdata : data ≠ []) (hW : weights.length = data.length) :
    log_probs_scan L dim lp data =
      (List.range data.length).map
        (fun t => if t < L then 0
          else lp ((data.take t).drop (t - L)) (data.getD t [])) ∧
    scan_one L K dim data weights =
      (List.range (data.length - L)).foldl
        (fun acc n =>
          (updStats acc.1 (weights.getD (L + n) []) (data.getD (L + n) [])
            ((data.take (L + n)).drop n),
           List.zipWith (fun a b => a + b) acc.2 (weights.getD (L + n) [])))
        (initStats K L dim, List.replicate K 0) := by
  constructor
  · have hx : List.replicate L (List.replicate dim (0 : ℚ)) ≠ [] := by
      simp only [ne_eq, List.replicate_eq_nil_iff]
      omega
    rw [log_probs_scan, arScan_eq lp data _ hx, zeroTake_map_range]
    refine List.map_congr_left (fun t _ => ?_)
    by_cases htL : t < L
    · simp [htL]
    · simp only [if_neg htL]
      congr 1
      rw [List.drop_append_eq_append_drop, List.drop_eq_nil_of_le,
        List.length_replicate]
      · simp
      · rw [List.length_replicate]
        omega
  · have hTake : data.take L ≠ [] := by
      simp only [ne_eq, List.take_eq_nil_iff, not_or]
      exact ⟨by omega, hdata⟩
    rw [scan_one, goStats_eq (data.drop L) (weights.drop L) (data.take L) _ _ hTake,
      List.length_drop, List.length_drop, hW, min_self]
    refine List.foldl_ext _ _ _ (fun acc n _ => ?_)
    rw [getD_drop, getD_drop, ← List.take_add]

/-- C3 witness: concrete instances of the hypotheses and of the first
conclusion of `arhmm_lag_window_spec` at lag 1 on a two-step sequence. -/
theorem arhmm_lag_window_spec_witness :
    (1 ≤ 1 ∧ ([[0, 0], [1, 1]] : List (List ℚ)) ≠ [] ∧
      ([[1], [1]] : List (List ℚ)).length = ([[0, 0], [1, 1]] : List (List ℚ)).length) ∧
    log_probs_scan 1 2 (fun _ _ => (7 : ℚ)) [[0, 0], [1, 1]] =
      (List.range ([[0, 0], [1, 1]] : List (List ℚ)).length).map
        (fun t => if t < 1 then 0
          else (fun _ _ => (7 : ℚ))
            ((([[0, 0], [1, 1]] : List (List ℚ)).take t).drop (t - 1))
            (([[0, 0], [1, 1]] : List (List ℚ)).getD t [])) :=
  ⟨⟨le_refl 1, by decide, rfl⟩,
    (arhmm_lag_window_spec 1 1 2 (fun _ _ => (7 : ℚ)) [[0, 0], [1, 1]] [[1], [1]]
      (le_refl 1) (by decide) rfl).1⟩

/-- C4: for `L = 1`, `K = 1`, the statistics accumulator on the sequence
`[[0,0],[1,1]]` with unit state weights returns exactly the single `t = 1`
update of the zero initial statistics (zero contribution from timestep 0):
lag-window first moment `[0,0]`, observation first moment `[1,1]`, and a
count of 1. -/
theorem ar_stats_accumulator_example :
    scan_one 1 1 2 [[0, 0], [1, 1]] [[1], [1]] =
      (updStats (initStats 1 1 2) [1] [1, 1] [[0, 0]], [1]) ∧
    (scan_one 1 1 2 [[0, 0], [1, 1]] [[1], [1]]).1 =
      [⟨[0, 0], [1, 1], [[0, 0], [0, 0]], [[0, 0], [0, 0]], [[1, 1], [1, 1]]⟩] := by
  constructor <;>
    simp [scan_one, goStats, updStats, initStats, zeroStats, addStats, smulStats,
      gaussian_linreg_suff_stats, outer, roll]

/-- C9: whenever the external `linear_sum_assignment` solver returns
pairwise-distinct column indices below `K2` (its documented contract on a
`K1×K2` overlap matrix with `K1 ≤ K2`), `find_permutation` returns a list
that is a permutation of `0..K2-1` — each index appears exactly once, also
when unused indices are padded on. -/
theorem find_permutation_perm (z1 z2 : List ℕ) (K2 : ℕ)
    (lsa : (ℕ → ℕ → ℕ) → List ℕ)
    (hnd : (lsa (compute_state_overlap z1 z2)).Nodup)
    (hlt : ∀ x ∈ lsa (compute_state_overlap z1 z2), x < K2) :
    List.Perm (find_permutation z1 z2 K2 lsa) (List.range K2) := by
  set P := lsa (compute_state_overlap z1 z2) with hP
  unfold find_permutation find_permutation_pad
  rw [← hP]
  split_ifs with hlen
  · have hndF : ((List.range K2).filter (fun j => decide (j ∉ P))).Nodup :=
      (List.nodup_range K2).filter _
    have hdisj : P.Disjoint ((List.range K2).filter (fun j => decide (j ∉ P))) := by
      intro a haP haF
      have := (List.mem_filter.mp haF).2
      simp at this
      exact this haP
    refine (List.perm_ext_iff_of_nodup (hnd.append hndF hdisj) (List.nodup_range K2)).mpr ?_
    intro a
    constructor
    · intro ha
      rcases List.mem_append.mp ha with ha | ha
      · exact List.mem_range.mpr (hlt a ha)
      · exact (List.mem_filter.mp ha).1
    · intro ha
      by_cases haP : a ∈ P
      · exact List.mem_append.mpr (Or.inl haP)
      · refine List.mem_append.mpr (Or.inr (List.mem_filter.mpr ⟨ha, ?_⟩))
        simpa using haP
  · have hsub : P.toFinset ⊆ Finset.range K2 := by
      intro a ha
      exact Finset.mem_range.mpr (hlt a (List.mem_toFinset.mp ha))
    have hcard : (Finset.range K2).card ≤ P.toFinset.card := by
      rw [List.toFinset_card_of_nodup hnd, Finset.card_range]
      omega
    have heq : P.toFinset = Finset.range K2 :=
      Finset.eq_of_subset_of_card_le hsub hcard
    refine (List.perm_ext_iff_of_nodup hnd (List.nodup_range K2)).mpr ?_
    intro a
    rw [← List.mem_toFinset, heq, Finset.mem_range, List.mem_range]

/-- C9 witness: a concrete assignment `[2, 0]` on `K2 = 3` states is padded
to a permutation of `0, 1, 2`. -/
theorem find_permutation_perm_witness :
    (([2, 0] : List ℕ).Nodup ∧ ∀ x ∈ ([2, 0] : List ℕ), x < 3) ∧
    List.Perm (find_permutation [0, 1] [2, 0] 3 (fun _ => [2, 0])) (List.range 3) :=
  ⟨⟨by decide, by decide⟩,
    find_permutation_perm [0, 1] [2, 0] 3 (fun _ => [2, 0]) (by decide) (by decide)⟩

end SsmJax
